import Mathlib

/-!
Verification of the record state-reconciliation engine of
`src/frontend/hooks/use-record.tsx`: path addressing (flatten/unflatten of
nested params), local field edits (`handleChange`), record merge after a
submission (`mergeRecordResponse`), and the submission pipeline
(`handleSubmit`), shallowly embedded in Lean.

JavaScript objects are modelled as association lists `List (String × _)`
(JS object keys are unique, so `filter`-based deletion coincides with JS
`delete`); JS truthiness is modelled on a small scalar value type.
-/

set_option autoImplicit false

namespace UseRecord

/-- Scalar JavaScript values that can sit in a record's flat `params`
mapping or be passed as the `value` argument of `handleChange`. -/
inductive JsValue where
  | undef
  | null
  | bool (b : Bool)
  | num (n : Int)
  | str (s : String)
deriving DecidableEq, Repr

/-- JavaScript truthiness of a scalar value: `undefined`, `null`, `false`,
`0` and `""` are falsy, everything else is truthy.  This is the `!value`
test of `handleChange`. -/
def JsValue.truthy : JsValue → Bool
  | .undef => false
  | .null => false
  | .bool b => b
  | .num n => decide (n ≠ 0)
  | .str s => decide (s ≠ "")

/-! ### Association-list primitives (JS object operations) -/
/-- Membership test (`k in o`) for a JS object modelled as an association
list. -/
def containsKey {α : Type} (l : List (String × α)) (k : String) : Bool :=
  l.any (fun e => decide (e.1 = k))

/-- Lookup (`o[k]`) in a JS object. -/
def lookupKey {α : Type} (l : List (String × α)) (k : String) : Option α :=
  (l.find? (fun e => decide (e.1 = k))).map (fun e => e.2)

/-- Deletion (`delete o[k]`): removes the entry with key `k` (JS object keys are
unique, so removing every occurrence is the same operation). -/
def delKey {α : Type} (l : List (String × α)) (k : String) : List (String × α) :=
  l.filter (fun e => decide (e.1 ≠ k))

/-- Assignment (`o[k] = v`): overwrites in place if the key exists (keeping its
position, as JS objects do), otherwise appends the new entry. -/
def setKey {α : Type} (l : List (String × α)) (k : String) (v : α) : List (String × α) :=
  if containsKey l k then l.map (fun e => if e.1 = k then (k, v) else e)
  else l ++ [(k, v)]

/-! ### Decimal numerals (array indices in flat paths)

The `flat` library renders array indices as decimal path segments
(`"tags.0"`, `"tags.1"`, …).  `natStr` is that rendering; `charsVal`
recovers the value, which gives injectivity. -/
/-- The decimal digit character of `d` (defined for `d < 10`). -/
def digitChar : Nat → Char
  | 0 => '0' | 1 => '1' | 2 => '2' | 3 => '3' | 4 => '4'
  | 5 => '5' | 6 => '6' | 7 => '7' | 8 => '8' | _ => '9'

/-- Inverse of `digitChar` on decimal digit characters. -/
def charDigit : Char → Nat
  | '0' => 0 | '1' => 1 | '2' => 2 | '3' => 3 | '4' => 4
  | '5' => 5 | '6' => 6 | '7' => 7 | '8' => 8 | _ => 9

/-- Big-endian decimal digit characters of `n`; the first argument is
fuel making the recursion structural (any fuel above `n` is enough). -/
def natCharsAux : Nat → Nat → List Char
  | 0, _ => []
  | f + 1, n => if n < 10 then [digitChar n] else natCharsAux f (n / 10) ++ [digitChar (n % 10)]

/-- The decimal digit characters of `n`. -/
def natChars (n : Nat) : List Char := natCharsAux (n + 1) n

/-- The decimal numeral of `n`, used by the flat-path encoding for array
indices. -/
def natStr (n : Nat) : String := ⟨natChars n⟩

/-- Numeric value of a digit-character string (left fold base 10). -/
def charsVal (cs : List Char) : Nat := cs.foldl (fun a c => a * 10 + charDigit c) 0

/-- Overapproximation of the characters from which a JavaScript
`Number()`-parseable string can be built (decimal, hex, octal, binary,
scientific notation, signs, whitespace, `Infinity`/`NaN` letters).  A key
containing at least one character outside this set is guaranteed not to be
confused with an array index by the flat-path decoder. -/
def numLikeChar (c : Char) : Bool :=
  c.isDigit || "abcdefABCDEFxXoOnNiIty+- \t\n\r".data.contains c

/-- Well-formedness of an object key in a nested structure: nonempty, free
of the path delimiter, and not confusable with a numeric path segment
(otherwise `flat.unflatten` would rebuild an array, breaking the
round-trip — the spec calls such hybrids malformed / undefined behavior). -/
def wellKeyB (k : String) : Bool :=
  decide (k ≠ "") && k.data.all (fun c => decide (c ≠ '.')) && !(k.data.all numLikeChar)

/-! ### The path delimiter: joining and splitting on `'.'` -/
/-- Split a character list on `'.'` (the segments of a flat path key). -/
def splitDotsC : List Char → List (List Char)
  | [] => [[]]
  | c :: cs =>
    if c = '.' then [] :: splitDotsC cs
    else
      match splitDotsC cs with
      | [] => [[c]]
      | s :: ss => (c :: s) :: ss

/-- Join character lists with the `'.'` delimiter. -/
def joinDotsC : List (List Char) → List Char
  | [] => []
  | [s] => s
  | s :: s2 :: ss => s ++ '.' :: joinDotsC (s2 :: ss)

/-- Join path segments into a dotted flat key. -/
def joinDots (segs : List String) : String := ⟨joinDotsC (segs.map String.data)⟩

/-- Split a dotted flat key into its path segments. -/
def splitDots (s : String) : List String := (splitDotsC s.data).map String.mk

/-! ### PathAddressing: nested structures and the flat encoding

Modelled from the spec: `handleChange` converts `params` between its flat
and nested forms with `flat.unflatten` / `flat.flatten` from the `flat`
npm package, which is not part of this repository's sources.  Following
§4.1 of the spec, a nested structure is an object/array tree with scalar
leaves; the flat mapping keys are the dotted paths to the leaves, with
array indices rendered as decimal segments.  Association lists stand for
JS objects (key order is insertion order; JS `==` deep-equality ignores
key order, so order is irrelevant to the round-trip claims). -/
/-- A nested params structure: objects and arrays of arbitrary depth with
scalar leaves. -/
inductive Nested where
  | leaf (v : JsValue)
  | obj (kvs : List (String × Nested))
  | arr (vs : List Nested)

/-- Prefix every path of a flat-entry list with one leading segment. -/
def prefixEntries (k : String) (es : List (List String × JsValue)) :
    List (List String × JsValue) :=
  es.map (fun e => (k :: e.1, e.2))

mutual

/-- The flat entries of a nested structure: for each scalar leaf, its
segment path and its value, in depth-first order (the order
`flat.flatten` enumerates object keys). -/
def entries : Nested → List (List String × JsValue)
  | .leaf v => [([], v)]
  | .obj kvs => entriesObj kvs
  | .arr vs => entriesArr 0 vs

/-- Flat entries contributed by an object's key/value pairs. -/
def entriesObj : List (String × Nested) → List (List String × JsValue)
  | [] => []
  | (k, v) :: rest => prefixEntries k (entries v) ++ entriesObj rest

/-- Flat entries contributed by an array's elements, indexed from `i`. -/
def entriesArr : Nat → List Nested → List (List String × JsValue)
  | _, [] => []
  | i, v :: rest => prefixEntries (natStr i) (entries v) ++ entriesArr (i + 1) rest

end

/-- Modelled from the spec: `flat.flatten` (the `flat` npm package is not
part of this repository's sources) — the flat mapping of a nested
structure, keyed by dot-joined paths. -/
def toFlat (n : Nested) : List (String × JsValue) :=
  (entries n).map (fun e => (joinDots e.1, e.2))

/-- First segments of the paths of a flat-entry list (with multiplicity). -/
def headsOf (es : List (List String × JsValue)) : List String :=
  es.filterMap (fun e => e.1.head?)

/-- Deduplicate, keeping the first occurrence of each key. -/
def dedupKeys : List String → List String
  | [] => []
  | h :: t => h :: (dedupKeys t).filter (fun x => decide (x ≠ h))

/-- The sub-entries of all paths starting with segment `h`, with that
segment stripped. -/
def groupOf (h : String) (es : List (List String × JsValue)) :
    List (List String × JsValue) :=
  es.filterMap (fun e =>
    match e.1 with
    | [] => none
    | h2 :: p => if h2 = h then some (p, e.2) else none)

/-- Group a flat-entry list by leading path segment, in order of first
occurrence. -/
def groupHeads (es : List (List String × JsValue)) :
    List (String × List (List String × JsValue)) :=
  (dedupKeys (headsOf es)).map (fun h => (h, groupOf h es))

/-- Modelled from the spec: the recursion of `flat.unflatten` on split
paths — rebuild the tree by grouping on the
leading segment; a group whose keys are exactly the decimal numerals
`0, 1, …` in order rebuilds an array (`flat` treats numeric segments as
array indices), any other group an object.  `fuel` bounds the recursion
depth (structurally); any value at least the longest path length is
enough.  On malformed hybrid input — which the spec declares undefined
behavior — this may differ from the library (e.g. sparse numeric keys). -/
def toNestedSegsF (fuel : Nat) (es : List (List String × JsValue)) : Nested :=
  match es with
  | [] => .obj []
  | ([], v) :: _ => .leaf v
  | (_ :: _, _) :: _ =>
    match fuel with
    | 0 => .obj []
    | f + 1 =>
      let gs := groupHeads es
      if gs.map Prod.fst = (List.range gs.length).map natStr then
        .arr (gs.map (fun g => toNestedSegsF f g.2))
      else
        .obj (gs.map (fun g => (g.1, toNestedSegsF f g.2)))

/-- Length of the longest path in a flat-entry list. -/
def maxPathLen (es : List (List String × JsValue)) : Nat :=
  es.foldr (fun e a => max e.1.length a) 0

/-- Modelled from the spec: `flat.unflatten` (the `flat` npm package is
not part of this repository's sources) — rebuild the nested structure
from a flat mapping. -/
def toNested (f : List (String × JsValue)) : Nested :=
  toNestedSegsF (maxPathLen (f.map (fun e => (splitDots e.1, e.2))))
    (f.map (fun e => (splitDots e.1, e.2)))

/-- A list of flat-entry groups, one per leading segment. -/
def flattenBlocks (bs : List (String × List (List String × JsValue))) :
    List (List String × JsValue) :=
  bs.flatMap (fun b => prefixEntries b.1 b.2)

/-- Well-formed nested structures (§4.1 of the spec): scalar leaves,
nonempty objects and arrays, and object keys that are distinct, nonempty,
delimiter-free and not confusable with array indices.  Malformed hybrids
are undefined behavior for `PathAddressing`, excluded here. -/
inductive WF : Nested → Prop where
  | leaf (v : JsValue) : WF (.leaf v)
  | obj (kvs : List (String × Nested)) (hne : kvs ≠ [])
      (hnd : (kvs.map Prod.fst).Nodup)
      (hkeys : ∀ kv ∈ kvs, wellKeyB kv.1 = true)
      (hwf : ∀ kv ∈ kvs, WF kv.2) : WF (.obj kvs)
  | arr (vs : List Nested) (hne : vs ≠ []) (hwf : ∀ v ∈ vs, WF v) : WF (.arr vs)

/-- Containers are the non-leaf structures (objects and arrays), the
shapes for which a flat mapping exists. -/
def isContainer : Nested → Bool
  | .leaf _ => false
  | .obj _ => true
  | .arr _ => true

/-! ### The record model and `handleChange` -/
/-- Modelled from the spec: the `RecordJSON` interface (declared outside
`src/`) — the record managed by `useRecord`, per the spec's data model
(§3): optional `id` (absent means not yet persisted), flat `params`,
per-path `errors`, and `populated` sub-records keyed by path. -/
inductive RecordJSON : Type where
  | mk (id : Option String) (params : List (String × JsValue))
      (errors : List (String × String)) (populated : List (String × RecordJSON))

def RecordJSON.id : RecordJSON → Option String
  | .mk i _ _ _ => i

def RecordJSON.params : RecordJSON → List (String × JsValue)
  | .mk _ p _ _ => p

def RecordJSON.errors : RecordJSON → List (String × String)
  | .mk _ _ e _ => e

def RecordJSON.populated : RecordJSON → List (String × RecordJSON)
  | .mk _ _ _ po => po

/-- Assignment `inflated[key] = value` in the truthy branch of `handleChange`
(line 149): assignment at the literal top-level key of the unflattened
params object. -/
def objSet (n : Nested) (k : String) (v : JsValue) : Nested :=
  match n with
  | .obj kvs => .obj (setKey kvs k (.leaf v))
  | other => other

/-- Deletion `delete inflated[key]` in the falsy branch of `handleChange`
(line 143): removes the literal top-level key only. -/
def objDelete (n : Nested) (k : String) : Nested :=
  match n with
  | .obj kvs => .obj (delKey kvs k)
  | other => other

/-- The field-edit branch of `handleChange` (lines 137-160): unflatten
`prev.params`, assign (truthy value) or delete (falsy value) the literal
key on the inflated object, re-flatten; on a falsy edit the key is also
removed from `populated`, on a truthy edit with a supplied sub-record the
sub-record is stored under the key.  The boolean is the code's
`populatedModified` flag: it is `false` exactly when the returned record
reuses `prev.populated` itself (same identity) rather than the copy. -/
def handleChangeEditCore (prev : RecordJSON) (key : String) (value : JsValue)
    (incoming : Option RecordJSON) : RecordJSON × Bool :=
  let inflated := toNested prev.params
  if value.truthy = false then
    if containsKey prev.populated key then
      (RecordJSON.mk prev.id (toFlat (objDelete inflated key)) prev.errors
        (delKey prev.populated key), true)
    else
      (RecordJSON.mk prev.id (toFlat (objDelete inflated key)) prev.errors
        prev.populated, false)
  else
    match incoming with
    | some r =>
      (RecordJSON.mk prev.id (toFlat (objSet inflated key value)) prev.errors
        (setKey prev.populated key r), true)
    | none =>
      (RecordJSON.mk prev.id (toFlat (objSet inflated key value)) prev.errors
        prev.populated, false)

/-- The record produced by a single-field edit. -/
def handleChangeEdit (prev : RecordJSON) (key : String) (value : JsValue)
    (incoming : Option RecordJSON) : RecordJSON :=
  (handleChangeEditCore prev key value incoming).1

/-- Overlay of `previous.populated` with `serverRecord.populated` (the JS
object spread): the previous
mapping with the server's entries overlaid, server winning on key
collision (lookup-equivalent ordering). -/
def overlayKeys (l r : List (String × RecordJSON)) : List (String × RecordJSON) :=
  l.filter (fun e => !(containsKey r e.1)) ++ r

/-- Modelled from the spec: `mergeRecordResponse`
(`src/frontend/utils/merge-record-response`) is not under `src/`.  Per
§4.3, the merged record takes `params` and `errors` from the server
record, `populated` is the previous mapping overlaid with the server's
(server wins on collision), and `id` comes from the server if present,
else is retained from the previous record. -/
def mergeRecordResponse (prev server : RecordJSON) : RecordJSON :=
  RecordJSON.mk
    (match server.id with
     | some i => some i
     | none => prev.id)
    server.params server.errors
    (overlayKeys prev.populated server.populated)

/-! ### The submission pipeline (`handleSubmit`) -/
/-- A notice forwarded to the Notifier boundary. -/
structure Notice where
  message : String
  type : String
deriving DecidableEq, Repr

/-- The fixed generic notice of the catch handler (lines 195-199). -/
def genericErrorNotice : Notice :=
  ⟨"There was an error updating record, Check out console to see more information.",
    "error"⟩

/-- The hook state touched by a submission: the record plus the `loading`
and `progress` `useState` cells. -/
structure HookState where
  record : RecordJSON
  loading : Bool
  progress : Nat

/-- JS `Math.round((loaded * 100) / total)` in exact arithmetic:
`⌊100·L/T + 1/2⌋ = (200·L + T) / (2·T)` (`Math.round` rounds half up,
which agrees with this for nonnegative arguments). -/
def jsRound100 (loaded total : Nat) : Nat := (200 * loaded + total) / (2 * total)

/-- One `onUploadProgress` event (line 172): the handler stores the
rounded percentage. -/
def applyProgress (st : HookState) (e : Nat × Nat) : HookState :=
  ⟨st.record, st.loading, jsRound100 e.1 e.2⟩

/-- The transport response consumed by the `then` handler: an optional
notice and the server's record data. -/
structure ActionResp where
  notice : Option Notice
  record : RecordJSON

/-- How the transport promise settles. -/
inductive Outcome where
  | success (resp : ActionResp)
  | failure

/-- The one network operation dispatched by a submission. -/
inductive ApiCall where
  | recordAction (resourceId : String) (actionName : String) (recordId : String)
  | resourceAction (resourceId : String) (actionName : String)
deriving DecidableEq, Repr

/-- The dispatch of `handleSubmit` (lines 176-185): `record.id ?
api.recordAction({actionName: 'edit', recordId: record.id})
: api.resourceAction({actionName: 'new'})` — a JS truthiness test on the
id, so an empty-string id is treated like an absent one. -/
def dispatchedCall (r : RecordJSON) (resourceId : String) : ApiCall :=
  match r.id with
  | some i =>
    if i ≠ "" then .recordAction resourceId "edit" i
    else .resourceAction resourceId "new"
  | none => .resourceAction resourceId "new"

/-- Everything observable about one submission: the final hook state, the
notices emitted to the Notifier, and the network call made. -/
structure SubmitResult where
  state : HookState
  notices : List Notice
  call : ApiCall

/-- One whole submission (lines 164-204): `setLoading(true)`, dispatch,
any number of progress events while in flight, then the `then` handler
(forward the response notice if present, merge the record, reset progress,
clear loading) or the `catch` handler (fixed error notice, reset progress,
clear loading, record untouched). -/
def submitRun (st : HookState) (resourceId : String) (events : List (Nat × Nat))
    (outcome : Outcome) : SubmitResult :=
  let inFlight := events.foldl applyProgress ⟨st.record, true, st.progress⟩
  match outcome with
  | .success resp =>
    ⟨⟨mergeRecordResponse inFlight.record resp.record, false, 0⟩,
      (match resp.notice with
       | some n => [n]
       | none => []),
      dispatchedCall st.record resourceId⟩
  | .failure =>
    ⟨⟨inFlight.record, false, 0⟩, [genericErrorNotice],
      dispatchedCall st.record resourceId⟩

/-! ### Record shape at runtime, initialization and replacement -/
/-- A record value as the JavaScript runtime may actually hold it: each
mapping field possibly `undefined` (the initializer defends against
exactly that with `?? {}`). -/
structure RawRecord where
  id : Option String
  params : Option (List (String × JsValue))
  errors : Option (List (String × String))
  populated : Option (List (String × RecordJSON))

/-- The `useState` initializer (lines 110-115): `{...initialRecord,
params: initialRecord?.params ?? {}, errors: initialRecord?.errors ?? {},
populated: initialRecord?.populated ?? {}}`. -/
def initializeRecord : Option RawRecord → RawRecord
  | none => ⟨none, some [], some [], some []⟩
  | some r => ⟨r.id, some (r.params.getD []), some (r.errors.getD []),
      some (r.populated.getD [])⟩

/-- All three mapping fields defined — the shape the spec promises
downstream. -/
def wellShaped (r : RawRecord) : Bool :=
  r.params.isSome && r.errors.isSome && r.populated.isSome

/-- A statically typed `RecordJSON` viewed as a runtime record value. -/
def toRaw (r : RecordJSON) : RawRecord :=
  ⟨r.id, some r.params, some r.errors, some r.populated⟩

/-- The `useEffect` wholesale replacement (lines 119-123): when the owning
context supplies a new initial record it becomes the state verbatim (no
re-defaulting); otherwise the state is kept. -/
def effectReplace (current : RawRecord) (initial : Option RecordJSON) : RawRecord :=
  match initial with
  | some r => toRaw r
  | none => current

/-! ### `handleChange` argument disambiguation -/
/-- The first argument of `handleChange`: a path string or a record-like
object (whose `params` field may be absent at runtime). -/
inductive ChangeArg where
  | path (s : String)
  | record (r : RawRecord)

/-- The replacement test of `handleChange` (lines 130-134):
`typeof value === 'undefined' && !(typeof propertyOrRecord === 'string')
&& propertyOrRecord.params`.  A present `params` field is an object and
hence truthy; an explicitly passed `undefined` value is indistinguishable
from an omitted argument in JavaScript. -/
def isWholeRecordReplacement : ChangeArg → JsValue → Bool
  | .record r, .undef => r.params.isSome
  | _, _ => false

/-- JS string coercion applied when the edit branch uses the first
argument as a key (`propertyOrRecord as string`). -/
def argAsKey : ChangeArg → String
  | .path s => s
  | .record _ => "[object Object]"

/-- What `handleChange` does with its arguments: replace the whole record
verbatim (`setRecord(propertyOrRecord)`), or apply a single-field edit at
the given path. -/
inductive ChangeAction where
  | replace (r : RawRecord)
  | fieldEdit (path : String) (value : JsValue)

/-- The dispatch of `handleChange` (lines 125-162) between whole-record
replacement and single-field edit. -/
def changeActionOf (arg : ChangeArg) (value : JsValue) : ChangeAction :=
  if isWholeRecordReplacement arg value then
    match arg with
    | .record r => .replace r
    | .path s => .fieldEdit s value
  else
    .fieldEdit (argAsKey arg) value

/-- Per-event recorded progress percentages of an upload sequence. -/
def progressTrace (events : List (Nat × Nat)) : List Nat :=
  events.map (fun e => jsRound100 e.1 e.2)

/-- An unsaved blank record: no id, empty mappings. -/
def emptyRecord : RecordJSON := RecordJSON.mk none [] [] []

/-- A record whose `populated` holds a sub-record under `"owner"`. -/
def ownerPopulatedRecord : RecordJSON :=
  RecordJSON.mk none [] [] [("owner", emptyRecord)]

/-- A record whose id is present but is the empty string (set but falsy). -/
def emptyIdRecord : RecordJSON := RecordJSON.mk (some "") [] [] []

/-- A sample well-formed nested structure with an object and an array. -/
def sampleNested : Nested :=
  .obj [("owner", .obj [("surname", .leaf (.str "Doe"))]),
    ("tags", .arr [.leaf (.str "a"), .leaf (.str "b")])]

/-- A well-shaped runtime record value. -/
def sampleRaw : RawRecord := ⟨none, some [], some [], some []⟩

theorem containsKey_delKey {α : Type} (l : List (String × α)) (k : String) :
    containsKey (delKey l k) k = false := by
  simp only [containsKey, delKey, List.any_eq_false]
  intro e he
  have := List.of_mem_filter he
  simp only [decide_eq_true_eq] at this ⊢
  exact this

theorem lookupKey_eq_none {α : Type} (l : List (String × α)) (k : String)
    (h : containsKey l k = false) : lookupKey l k = none := by
  simp only [containsKey, List.any_eq_false, decide_eq_true_eq] at h
  simp only [lookupKey, Option.map_eq_none']
  exact List.find?_eq_none.mpr (by intro e he; simpa using h e he)

theorem lookupKey_append {α : Type} (l r : List (String × α)) (k : String) :
    lookupKey (l ++ r) k =
      (match lookupKey l k with
       | some v => some v
       | none => lookupKey r k) := by
  simp only [lookupKey, List.find?_append]
  cases l.find? (fun e => decide (e.1 = k)) <;> simp [Option.orElse]

theorem charDigit_digitChar (d : Nat) (hd : d < 10) : charDigit (digitChar d) = d := by
  interval_cases d <;> rfl

theorem charsVal_natCharsAux : ∀ f n, n < f → charsVal (natCharsAux f n) = n := by
  intro f
  induction f with
  | zero => intro n hn; omega
  | succ f ih =>
    intro n hn
    by_cases h : n < 10
    · simp [natCharsAux, h, charsVal, charDigit_digitChar n h]
    · have hdiv : n / 10 < f := by
        have h1 : n / 10 < n := Nat.div_lt_self (by omega) (by omega)
        omega
      have hmod := charDigit_digitChar (n % 10) (Nat.mod_lt n (by omega))
      simp only [natCharsAux, h, if_false, charsVal, List.foldl_append]
      simp only [charsVal] at ih
      rw [ih (n / 10) hdiv, List.foldl_cons, List.foldl_nil, hmod]
      omega

theorem natStr_injective (a b : Nat) (h : natStr a = natStr b) : a = b := by
  have hc : natChars a = natChars b := congrArg String.data h
  have ha := charsVal_natCharsAux (a + 1) a (by omega)
  have hb := charsVal_natCharsAux (b + 1) b (by omega)
  simp only [natChars] at hc
  rw [← ha, ← hb, hc]

theorem natCharsAux_all (P : Char → Bool) (hP : ∀ d, d < 10 → P (digitChar d) = true) :
    ∀ f n, (natCharsAux f n).all P = true := by
  intro f
  induction f with
  | zero => intro n; rfl
  | succ f ih =>
    intro n
    by_cases h : n < 10
    · simp [natCharsAux, h, hP n h]
    · simp [natCharsAux, h, List.all_append, ih, hP (n % 10) (Nat.mod_lt n (by omega))]

theorem natChars_ne_nil (n : Nat) : natChars n ≠ [] := by
  by_cases h : n < 10 <;> simp [natChars, natCharsAux, h]

theorem natChars_not_dot (n : Nat) : ∀ c ∈ natChars n, c ≠ '.' := by
  have := natCharsAux_all (fun c => decide (c ≠ '.'))
    (by intro d hd; interval_cases d <;> rfl) (n + 1) n
  simpa [List.all_eq_true] using this

theorem natChars_numLike (n : Nat) : (natChars n).all numLikeChar = true :=
  natCharsAux_all numLikeChar (by intro d hd; interval_cases d <;> rfl) (n + 1) n

theorem wellKeyB_ne_natStr (k : String) (h : wellKeyB k = true) (n : Nat) : k ≠ natStr n := by
  intro hk
  have hall : k.data.all numLikeChar = true := by
    rw [hk]; exact natChars_numLike n
  simp only [wellKeyB, Bool.and_eq_true, Bool.not_eq_true'] at h
  rw [h.2] at hall
  exact Bool.false_ne_true hall

theorem wellKeyB_ne_nil (k : String) (h : wellKeyB k = true) : k ≠ "" := by
  simp only [wellKeyB, Bool.and_eq_true, decide_eq_true_eq] at h
  exact h.1.1

theorem wellKeyB_not_dot (k : String) (h : wellKeyB k = true) : ∀ c ∈ k.data, c ≠ '.' := by
  simp only [wellKeyB, Bool.and_eq_true, List.all_eq_true, decide_eq_true_eq] at h
  exact h.1.2

theorem splitDotsC_ne_nil (cs : List Char) : splitDotsC cs ≠ [] := by
  induction cs with
  | nil => simp [splitDotsC]
  | cons c cs ih =>
    by_cases h : c = '.'
    · simp [splitDotsC, h]
    · simp only [splitDotsC, h, if_false]
      cases splitDotsC cs <;> simp

theorem splitDotsC_dotFree (s : List Char) (h : ∀ c ∈ s, c ≠ '.') :
    splitDotsC s = [s] := by
  induction s with
  | nil => rfl
  | cons c cs ih =>
    have hc : c ≠ '.' := h c (by simp)
    have := ih (fun x hx => h x (by simp [hx]))
    simp only [splitDotsC, hc, if_false, this]

theorem splitDotsC_append (s t : List Char) (h : ∀ c ∈ s, c ≠ '.') :
    splitDotsC (s ++ '.' :: t) = s :: splitDotsC t := by
  induction s with
  | nil => simp [splitDotsC]
  | cons c cs ih =>
    have hc : c ≠ '.' := h c (by simp)
    have hrec := ih (fun x hx => h x (by simp [hx]))
    simp only [List.cons_append, splitDotsC, hc, if_false, List.append_eq]
    rw [hrec]

theorem splitDotsC_joinDotsC (ss : List (List Char)) (hne : ss ≠ [])
    (h : ∀ s ∈ ss, ∀ c ∈ s, c ≠ '.') : splitDotsC (joinDotsC ss) = ss := by
  induction ss with
  | nil => exact absurd rfl hne
  | cons s ss ih =>
    cases ss with
    | nil => exact splitDotsC_dotFree s (h s (by simp))
    | cons s2 ss2 =>
      have hs : ∀ c ∈ s, c ≠ '.' := h s (by simp)
      have hrest : ∀ x ∈ s2 :: ss2, ∀ c ∈ x, c ≠ '.' := by
        intro x hx; exact h x (by simp [hx])
      rw [joinDotsC, splitDotsC_append s (joinDotsC (s2 :: ss2)) hs,
        ih (List.cons_ne_nil s2 ss2) hrest]

theorem splitDots_joinDots (segs : List String) (hne : segs ≠ [])
    (h : ∀ s ∈ segs, ∀ c ∈ s.data, c ≠ '.') : splitDots (joinDots segs) = segs := by
  have hmapne : segs.map String.data ≠ [] := by
    intro hc; exact hne (List.map_eq_nil_iff.mp hc)
  have hdot : ∀ s ∈ segs.map String.data, ∀ c ∈ s, c ≠ '.' := by
    intro s hs
    rcases List.mem_map.mp hs with ⟨x, hx, rfl⟩
    exact h x hx
  simp only [splitDots, joinDots, splitDotsC_joinDotsC (segs.map String.data) hmapne hdot,
    List.map_map]
  have : (String.mk ∘ String.data) = id := by
    funext x; rfl
  rw [this, List.map_id]

theorem entriesObj_eq (kvs : List (String × Nested)) :
    entriesObj kvs = flattenBlocks (kvs.map (fun kv => (kv.1, entries kv.2))) := by
  induction kvs with
  | nil => rfl
  | cons kv rest ih =>
    rw [show entriesObj (kv :: rest) = prefixEntries kv.1 (entries kv.2) ++ entriesObj rest
        from by rw [entriesObj]]
    simp only [flattenBlocks, List.map_cons, List.flatMap_cons, ih, flattenBlocks]

theorem entriesArr_eq (vs : List Nested) : ∀ i : Nat,
    entriesArr i vs = flattenBlocks ((vs.enumFrom i).map (fun iv => (natStr iv.1, entries iv.2))) := by
  induction vs with
  | nil => intro i; rfl
  | cons v rest ih =>
    intro i
    rw [entriesArr, List.enumFrom_cons]
    simp only [flattenBlocks, List.map_cons, List.flatMap_cons, ih (i + 1), flattenBlocks]

theorem headsOf_append (l r : List (List String × JsValue)) :
    headsOf (l ++ r) = headsOf l ++ headsOf r := by
  simp [headsOf, List.filterMap_append]

theorem headsOf_prefixEntries (k : String) (es : List (List String × JsValue)) :
    headsOf (prefixEntries k es) = List.replicate es.length k := by
  simp only [headsOf, prefixEntries, List.filterMap_map]
  rw [show ((fun e : List String × JsValue => e.1.head?) ∘
        fun e : List String × JsValue => (k :: e.1, e.2)) = fun _ => some k from rfl]
  rw [show (fun _ : List String × JsValue => some k) = some ∘ Function.const _ k from rfl,
    ← List.filterMap_map, List.filterMap_some, List.map_const]

theorem dedupKeys_replicate_append (a : String) (l : List String) :
    ∀ m : Nat, 0 < m →
      dedupKeys (List.replicate m a ++ l) = a :: (dedupKeys l).filter (fun x => decide (x ≠ a)) := by
  intro m
  induction m with
  | zero => omega
  | succ m ih =>
    intro _
    cases m with
    | zero => simp [dedupKeys]
    | succ m2 =>
      rw [List.replicate_succ, List.cons_append, dedupKeys, ih (by omega)]
      congr 1
      rw [List.filter_cons, if_neg (by simp), List.filter_filter]
      apply List.filter_congr
      intro x _
      rw [Bool.and_self]

theorem dedup_headsOf_flattenBlocks (bs : List (String × List (List String × JsValue)))
    (hnd : (bs.map Prod.fst).Nodup) (hne : ∀ b ∈ bs, b.2 ≠ []) :
    dedupKeys (headsOf (flattenBlocks bs)) = bs.map Prod.fst := by
  induction bs with
  | nil => rfl
  | cons b bs ih =>
    rw [List.map_cons] at hnd
    have hnotmem : b.1 ∉ bs.map Prod.fst := hnd.not_mem
    have hb : 0 < b.2.length :=
      List.length_pos.mpr (hne b (List.mem_cons_self b bs))
    have hstep : flattenBlocks (b :: bs) = prefixEntries b.1 b.2 ++ flattenBlocks bs := by
      simp [flattenBlocks]
    rw [hstep, headsOf_append, headsOf_prefixEntries,
      dedupKeys_replicate_append b.1 (headsOf (flattenBlocks bs)) b.2.length hb,
      ih hnd.of_cons (fun x hx => hne x (List.mem_cons_of_mem b hx))]
    rw [List.map_cons]
    congr 1
    apply List.filter_eq_self.mpr
    intro x hx
    simp only [decide_eq_true_eq]
    intro hxe
    exact hnotmem (hxe ▸ hx)

theorem groupOf_append (k : String) (l r : List (List String × JsValue)) :
    groupOf k (l ++ r) = groupOf k l ++ groupOf k r := by
  simp [groupOf, List.filterMap_append]

theorem groupOf_prefixEntries_self (k : String) (es : List (List String × JsValue)) :
    groupOf k (prefixEntries k es) = es := by
  simp only [groupOf, prefixEntries, List.filterMap_map]
  have : ((fun e : List String × JsValue =>
      match e.1 with
      | [] => none
      | h2 :: p => if h2 = k then some (p, e.2) else none) ∘
      fun e : List String × JsValue => (k :: e.1, e.2)) = some := by
    funext e; simp
  rw [this, List.filterMap_some]

theorem groupOf_prefixEntries_ne (k k2 : String) (hk : k2 ≠ k)
    (es : List (List String × JsValue)) : groupOf k (prefixEntries k2 es) = [] := by
  simp only [groupOf, prefixEntries, List.filterMap_map]
  have : ((fun e : List String × JsValue =>
      match e.1 with
      | [] => none
      | h2 :: p => if h2 = k then some (p, e.2) else none) ∘
      fun e : List String × JsValue => (k2 :: e.1, e.2)) =
      fun _ => (none : Option (List String × JsValue)) := by
    funext e; simp [hk]
  rw [this]
  induction es with
  | nil => rfl
  | cons e es ih =>
    rw [List.filterMap_cons]
    exact ih

theorem groupOf_flattenBlocks_not_mem (k : String)
    (bs : List (String × List (List String × JsValue)))
    (h : k ∉ bs.map Prod.fst) : groupOf k (flattenBlocks bs) = [] := by
  induction bs with
  | nil => rfl
  | cons b bs ih =>
    have hstep : flattenBlocks (b :: bs) = prefixEntries b.1 b.2 ++ flattenBlocks bs := by
      simp [flattenBlocks]
    rw [List.map_cons] at h
    have hb : b.1 ≠ k := fun hc => h (hc ▸ List.mem_cons_self b.1 (bs.map Prod.fst))
    rw [hstep, groupOf_append, groupOf_prefixEntries_ne k b.1 hb,
      ih (fun hc => h (List.mem_cons_of_mem b.1 hc)), List.append_nil]

theorem groupHeads_flattenBlocks (bs : List (String × List (List String × JsValue)))
    (hnd : (bs.map Prod.fst).Nodup) (hne : ∀ b ∈ bs, b.2 ≠ []) :
    groupHeads (flattenBlocks bs) = bs := by
  rw [groupHeads, dedup_headsOf_flattenBlocks bs hnd hne]
  induction bs with
  | nil => rfl
  | cons b bs ih =>
    rw [List.map_cons] at hnd
    have hnotmem : b.1 ∉ bs.map Prod.fst := hnd.not_mem
    have hstep : flattenBlocks (b :: bs) = prefixEntries b.1 b.2 ++ flattenBlocks bs := by
      simp [flattenBlocks]
    rw [List.map_cons, List.map_cons]
    have hhead : groupOf b.1 (flattenBlocks (b :: bs)) = b.2 := by
      rw [hstep, groupOf_append, groupOf_prefixEntries_self,
        groupOf_flattenBlocks_not_mem b.1 bs hnotmem, List.append_nil]
    have htail : (bs.map Prod.fst).map (fun h => (h, groupOf h (flattenBlocks (b :: bs)))) =
        (bs.map Prod.fst).map (fun h => (h, groupOf h (flattenBlocks bs))) := by
      apply List.map_congr_left
      intro h hmem
      have hne2 : b.1 ≠ h := by
        intro hc; exact hnotmem (hc ▸ hmem)
      rw [hstep, groupOf_append, groupOf_prefixEntries_ne h b.1 hne2, List.nil_append]
    rw [hhead, htail, ih hnd.of_cons (fun x hx => hne x (List.mem_cons_of_mem b hx))]

theorem entries_ne_nil (n : Nested) (h : WF n) : entries n ≠ [] := by
  induction h with
  | leaf v => simp [entries]
  | obj kvs hne hnd hkeys hwf ih =>
    cases kvs with
    | nil => exact absurd rfl hne
    | cons kv rest =>
      have h1 : entries kv.2 ≠ [] := ih kv (List.mem_cons_self kv rest)
      have : entries (Nested.obj (kv :: rest)) =
          prefixEntries kv.1 (entries kv.2) ++ entriesObj rest := rfl
      rw [this]
      simp [prefixEntries, List.append_eq_nil, List.map_eq_nil_iff, h1]
  | arr vs hne hwf ih =>
    cases vs with
    | nil => exact absurd rfl hne
    | cons v rest =>
      have h1 : entries v ≠ [] := ih v (List.mem_cons_self v rest)
      have : entries (Nested.arr (v :: rest)) =
          prefixEntries (natStr 0) (entries v) ++ entriesArr 1 rest := rfl
      rw [this]
      simp [prefixEntries, List.append_eq_nil, List.map_eq_nil_iff, h1]

theorem mem_flattenBlocks (bs : List (String × List (List String × JsValue)))
    (b : String × List (List String × JsValue)) (hb : b ∈ bs)
    (e : List String × JsValue) (he : e ∈ b.2) :
    (b.1 :: e.1, e.2) ∈ flattenBlocks bs := by
  simp only [flattenBlocks, List.mem_flatMap]
  refine ⟨b, hb, ?_⟩
  simp only [prefixEntries, List.mem_map]
  exact ⟨e, he, rfl⟩

theorem flattenBlocks_shape (bs : List (String × List (List String × JsValue)))
    (e : List String × JsValue) (he : e ∈ flattenBlocks bs) :
    ∃ k p, e.1 = k :: p := by
  simp only [flattenBlocks, List.mem_flatMap] at he
  rcases he with ⟨b, _, hm⟩
  simp only [prefixEntries, List.mem_map] at hm
  rcases hm with ⟨x, _, rfl⟩
  exact ⟨b.1, x.1, rfl⟩

theorem toNestedSegsF_cons (f : Nat) (k : String) (p : List String) (v : JsValue)
    (rest : List (List String × JsValue)) :
    toNestedSegsF (f + 1) ((k :: p, v) :: rest) =
      (if (groupHeads ((k :: p, v) :: rest)).map Prod.fst =
          (List.range (groupHeads ((k :: p, v) :: rest)).length).map natStr then
        Nested.arr ((groupHeads ((k :: p, v) :: rest)).map (fun g => toNestedSegsF f g.2))
      else
        Nested.obj ((groupHeads ((k :: p, v) :: rest)).map (fun g => (g.1, toNestedSegsF f g.2)))) :=
  rfl

theorem toNestedSegsF_entries (n : Nested) (h : WF n) : ∀ fuel : Nat,
    (∀ e ∈ entries n, e.1.length ≤ fuel) → toNestedSegsF fuel (entries n) = n := by
  induction h with
  | leaf v =>
    intro fuel _
    have h0 : entries (Nested.leaf v) = [([], v)] := rfl
    rw [h0]
    cases fuel <;> rfl
  | obj kvs hne hnd hkeys hwf ih =>
    intro fuel hfuel
    have hwfobj : WF (Nested.obj kvs) := WF.obj kvs hne hnd hkeys hwf
    have hbskeys : (kvs.map (fun kv => (kv.1, entries kv.2))).map Prod.fst =
        kvs.map Prod.fst := by
      rw [List.map_map]; rfl
    have hbne : ∀ b ∈ kvs.map (fun kv => (kv.1, entries kv.2)), b.2 ≠ [] := by
      intro b hb
      rcases List.mem_map.mp hb with ⟨kv, hkv, rfl⟩
      exact entries_ne_nil kv.2 (hwf kv hkv)
    have hE : entries (Nested.obj kvs) =
        flattenBlocks (kvs.map (fun kv => (kv.1, entries kv.2))) := by
      have h0 : entries (Nested.obj kvs) = entriesObj kvs := rfl
      rw [h0, entriesObj_eq]
    have hG : groupHeads (entries (Nested.obj kvs)) =
        kvs.map (fun kv => (kv.1, entries kv.2)) := by
      rw [hE]
      exact groupHeads_flattenBlocks _ (by rw [hbskeys]; exact hnd) hbne
    obtain ⟨k, p, v, rest, hes⟩ :
        ∃ k p v rest, entries (Nested.obj kvs) = (k :: p, v) :: rest := by
      cases hcase : entries (Nested.obj kvs) with
      | nil => exact absurd hcase (entries_ne_nil _ hwfobj)
      | cons e rest =>
        obtain ⟨e1, e2⟩ := e
        have hmem : (e1, e2) ∈ entries (Nested.obj kvs) := by
          rw [hcase]; exact List.mem_cons_self _ _
        rw [hE] at hmem
        rcases flattenBlocks_shape _ (e1, e2) hmem with ⟨k, p, hp⟩
        simp only at hp
        exact ⟨k, p, e2, rest, by rw [hp]⟩
    cases fuel with
    | zero =>
      exfalso
      have := hfuel (k :: p, v) (by rw [hes]; exact List.mem_cons_self _ _)
      simp at this
    | succ f =>
      rw [hes, toNestedSegsF_cons, ← hes, hG]
      have hcond : ¬((kvs.map (fun kv => (kv.1, entries kv.2))).map Prod.fst =
          (List.range (kvs.map (fun kv => (kv.1, entries kv.2))).length).map natStr) := by
        rw [hbskeys, List.length_map]
        cases kvs with
        | nil => exact absurd rfl hne
        | cons kv0 rest2 =>
          intro hc
          rw [List.length_cons, List.range_succ_eq_map, List.map_cons, List.map_cons] at hc
          have hh : kv0.1 = natStr 0 := by
            have := congrArg List.head? hc
            simpa using this
          exact wellKeyB_ne_natStr kv0.1 (hkeys kv0 (List.mem_cons_self kv0 rest2)) 0 hh
      rw [if_neg hcond]
      congr 1
      rw [List.map_map]
      have hstep : ∀ kv ∈ kvs,
          ((fun g : String × List (List String × JsValue) => (g.1, toNestedSegsF f g.2)) ∘
            fun kv : String × Nested => (kv.1, entries kv.2)) kv = id kv := by
        intro kv hkv
        show (kv.1, toNestedSegsF f (entries kv.2)) = kv
        have hchildfuel : ∀ e ∈ entries kv.2, e.1.length ≤ f := by
          intro e he
          have hmem : (kv.1 :: e.1, e.2) ∈ entries (Nested.obj kvs) := by
            rw [hE]
            exact mem_flattenBlocks _ (kv.1, entries kv.2)
              (List.mem_map_of_mem (fun kv => (kv.1, entries kv.2)) hkv) e he
          have := hfuel (kv.1 :: e.1, e.2) hmem
          simp only [List.length_cons] at this
          omega
        rw [ih kv hkv f hchildfuel]
      rw [List.map_congr_left hstep, List.map_id]
  | arr vs hne hwf ih =>
    intro fuel hfuel
    have hwfarr : WF (Nested.arr vs) := WF.arr vs hne hwf
    have hmemvs : ∀ iv ∈ vs.enumFrom 0, iv.2 ∈ vs := by
      intro iv hiv
      have := List.mem_map_of_mem Prod.snd hiv
      rwa [List.enumFrom_map_snd] at this
    have hbskeys : ((vs.enumFrom 0).map (fun iv => (natStr iv.1, entries iv.2))).map Prod.fst =
        (List.range vs.length).map natStr := by
      rw [List.map_map,
        show (Prod.fst ∘ fun iv : Nat × Nested => (natStr iv.1, entries iv.2)) =
          natStr ∘ Prod.fst from rfl,
        ← List.map_map, List.enumFrom_map_fst, ← List.range_eq_range']
    have hbnd : (((vs.enumFrom 0).map (fun iv => (natStr iv.1, entries iv.2))).map Prod.fst).Nodup := by
      rw [hbskeys]
      exact (List.nodup_range vs.length).map (fun a b hab => natStr_injective a b hab)
    have hbne : ∀ b ∈ (vs.enumFrom 0).map (fun iv => (natStr iv.1, entries iv.2)), b.2 ≠ [] := by
      intro b hb
      rcases List.mem_map.mp hb with ⟨iv, hiv, rfl⟩
      exact entries_ne_nil iv.2 (hwf iv.2 (hmemvs iv hiv))
    have hE : entries (Nested.arr vs) =
        flattenBlocks ((vs.enumFrom 0).map (fun iv => (natStr iv.1, entries iv.2))) := by
      have h0 : entries (Nested.arr vs) = entriesArr 0 vs := rfl
      rw [h0, entriesArr_eq vs 0]
    have hG : groupHeads (entries (Nested.arr vs)) =
        (vs.enumFrom 0).map (fun iv => (natStr iv.1, entries iv.2)) := by
      rw [hE]
      exact groupHeads_flattenBlocks _ hbnd hbne
    obtain ⟨k, p, v, rest, hes⟩ :
        ∃ k p v rest, entries (Nested.arr vs) = (k :: p, v) :: rest := by
      cases hcase : entries (Nested.arr vs) with
      | nil => exact absurd hcase (entries_ne_nil _ hwfarr)
      | cons e rest =>
        obtain ⟨e1, e2⟩ := e
        have hmem : (e1, e2) ∈ entries (Nested.arr vs) := by
          rw [hcase]; exact List.mem_cons_self _ _
        rw [hE] at hmem
        rcases flattenBlocks_shape _ (e1, e2) hmem with ⟨k, p, hp⟩
        simp only at hp
        exact ⟨k, p, e2, rest, by rw [hp]⟩
    cases fuel with
    | zero =>
      exfalso
      have := hfuel (k :: p, v) (by rw [hes]; exact List.mem_cons_self _ _)
      simp at this
    | succ f =>
      rw [hes, toNestedSegsF_cons, ← hes, hG]
      have hlen : ((vs.enumFrom 0).map (fun iv => (natStr iv.1, entries iv.2))).length =
          vs.length := by
        rw [List.length_map, List.enumFrom_length]
      rw [if_pos (by rw [hbskeys, hlen])]
      congr 1
      rw [List.map_map]
      have hstep : ∀ iv ∈ vs.enumFrom 0,
          ((fun g : String × List (List String × JsValue) => toNestedSegsF f g.2) ∘
            fun iv : Nat × Nested => (natStr iv.1, entries iv.2)) iv = Prod.snd iv := by
        intro iv hiv
        show toNestedSegsF f (entries iv.2) = iv.2
        have hchildfuel : ∀ e ∈ entries iv.2, e.1.length ≤ f := by
          intro e he
          have hmem : (natStr iv.1 :: e.1, e.2) ∈ entries (Nested.arr vs) := by
            rw [hE]
            exact mem_flattenBlocks _ (natStr iv.1, entries iv.2)
              (List.mem_map_of_mem (fun iv => (natStr iv.1, entries iv.2)) hiv) e he
          have := hfuel (natStr iv.1 :: e.1, e.2) hmem
          simp only [List.length_cons] at this
          omega
        exact ih iv.2 (hmemvs iv hiv) f hchildfuel
      rw [List.map_congr_left hstep, List.enumFrom_map_snd]

theorem entries_obj (kvs : List (String × Nested)) :
    entries (Nested.obj kvs) = flattenBlocks (kvs.map (fun kv => (kv.1, entries kv.2))) :=
  entriesObj_eq kvs

theorem entries_arr (vs : List Nested) :
    entries (Nested.arr vs) =
      flattenBlocks ((vs.enumFrom 0).map (fun iv => (natStr iv.1, entries iv.2))) :=
  entriesArr_eq vs 0

theorem entries_segments (n : Nested) (h : WF n) :
    ∀ e ∈ entries n, ∀ s ∈ e.1, ∀ c ∈ s.data, c ≠ '.' := by
  induction h with
  | leaf v =>
    intro e he s hs
    have h0 : entries (Nested.leaf v) = [([], v)] := rfl
    rw [h0, List.mem_singleton] at he
    subst he
    simp at hs
  | obj kvs hne hnd hkeys hwf ih =>
    intro e he s hs c hc
    rw [entries_obj] at he
    simp only [flattenBlocks, List.mem_flatMap] at he
    rcases he with ⟨b, hb, hm⟩
    rcases List.mem_map.mp hb with ⟨kv, hkv, rfl⟩
    simp only [prefixEntries, List.mem_map] at hm
    rcases hm with ⟨x, hx, rfl⟩
    rcases List.mem_cons.mp hs with hshead | hstail
    · subst hshead; exact wellKeyB_not_dot kv.1 (hkeys kv hkv) c hc
    · exact ih kv hkv x hx s hstail c hc
  | arr vs hne hwf ih =>
    intro e he s hs c hc
    rw [entries_arr] at he
    simp only [flattenBlocks, List.mem_flatMap] at he
    rcases he with ⟨b, hb, hm⟩
    rcases List.mem_map.mp hb with ⟨iv, hiv, rfl⟩
    simp only [prefixEntries, List.mem_map] at hm
    rcases hm with ⟨x, hx, rfl⟩
    have hivmem : iv.2 ∈ vs := by
      have := List.mem_map_of_mem Prod.snd hiv
      rwa [List.enumFrom_map_snd] at this
    rcases List.mem_cons.mp hs with hshead | hstail
    · subst hshead; exact natChars_not_dot iv.1 c hc
    · exact ih iv.2 hivmem x hx s hstail c hc

theorem entries_paths_ne_nil (n : Nested) (hc : isContainer n = true) :
    ∀ e ∈ entries n, e.1 ≠ [] := by
  cases n with
  | leaf v => simp [isContainer] at hc
  | obj kvs =>
    intro e he
    rw [entries_obj] at he
    rcases flattenBlocks_shape _ e he with ⟨k, p, hp⟩
    rw [hp]
    exact List.cons_ne_nil k p
  | arr vs =>
    intro e he
    rw [entries_arr] at he
    rcases flattenBlocks_shape _ e he with ⟨k, p, hp⟩
    rw [hp]
    exact List.cons_ne_nil k p

theorem le_maxPathLen (es : List (List String × JsValue)) :
    ∀ e ∈ es, e.1.length ≤ maxPathLen es := by
  induction es with
  | nil => intro e he; simp at he
  | cons x xs ih =>
    intro e he
    have hfold : maxPathLen (x :: xs) = max x.1.length (maxPathLen xs) := rfl
    rcases List.mem_cons.mp he with rfl | hxs
    · rw [hfold]; exact Nat.le_max_left _ _
    · rw [hfold]; exact (ih e hxs).trans (Nat.le_max_right _ _)

theorem map_splitDots_toFlat (n : Nested) (h : WF n) (hc : isContainer n = true) :
    (toFlat n).map (fun e => (splitDots e.1, e.2)) = entries n := by
  rw [toFlat, List.map_map]
  have hpt : ∀ e ∈ entries n, ((fun e : String × JsValue => (splitDots e.1, e.2)) ∘
      fun e : List String × JsValue => (joinDots e.1, e.2)) e = id e := by
    intro e he
    show (splitDots (joinDots e.1), e.2) = e
    rw [splitDots_joinDots e.1 (entries_paths_ne_nil n hc e he)
      (fun s hs => entries_segments n h e he s hs)]
  rw [List.map_congr_left hpt, List.map_id]

/-- Round trip, first direction: unflattening the flat form of a
well-formed container recovers it exactly. -/
theorem toNested_toFlat (n : Nested) (h : WF n) (hc : isContainer n = true) :
    toNested (toFlat n) = n := by
  unfold toNested
  rw [map_splitDots_toFlat n h hc]
  exact toNestedSegsF_entries n h (maxPathLen (entries n)) (le_maxPathLen (entries n))

theorem lookupKey_cons {α : Type} (e : String × α) (l : List (String × α)) (k : String) :
    lookupKey (e :: l) k = if e.1 = k then some e.2 else lookupKey l k := by
  by_cases he : e.1 = k
  · simp [lookupKey, List.find?_cons, he]
  · simp [lookupKey, List.find?_cons, he]

theorem lookupKey_eq_some_of_containsKey {α : Type} (l : List (String × α)) (k : String)
    (h : containsKey l k = true) : ∃ v, lookupKey l k = some v := by
  simp only [containsKey, List.any_eq_true, decide_eq_true_eq] at h
  rcases h with ⟨e, he, hek⟩
  have hsome : (l.find? (fun e => decide (e.1 = k))).isSome = true :=
    List.find?_isSome.mpr ⟨e, he, by simp [hek]⟩
  rcases Option.isSome_iff_exists.mp hsome with ⟨x, hx⟩
  exact ⟨x.2, by simp [lookupKey, hx]⟩

theorem lookupKey_filter_keep {α : Type} (l : List (String × α)) (q : String × α → Bool)
    (k : String) (hk : ∀ e : String × α, e.1 = k → q e = true) :
    lookupKey (l.filter q) k = lookupKey l k := by
  induction l with
  | nil => rfl
  | cons e l ih =>
    rw [List.filter_cons]
    by_cases he : e.1 = k
    · rw [if_pos (hk e he), lookupKey_cons, lookupKey_cons, if_pos he, if_pos he]
    · by_cases hq : q e = true
      · rw [if_pos hq, lookupKey_cons, lookupKey_cons, if_neg he, if_neg he, ih]
      · rw [if_neg hq, ih, lookupKey_cons, if_neg he]

theorem lookupKey_overlayKeys (l r : List (String × RecordJSON)) (k : String) :
    lookupKey (overlayKeys l r) k =
      (match lookupKey r k with
       | some v => some v
       | none => lookupKey l k) := by
  rw [overlayKeys, lookupKey_append]
  by_cases hmem : containsKey r k = true
  · have hleft : lookupKey (l.filter (fun e => !(containsKey r e.1))) k = none := by
      apply lookupKey_eq_none
      simp only [containsKey, List.any_eq_false, decide_eq_true_eq]
      intro e he hek
      have hq := List.of_mem_filter he
      rw [hek] at hq
      rw [show (r.any fun e => decide (e.1 = k)) = true from hmem] at hq
      simp at hq
    rcases lookupKey_eq_some_of_containsKey r k hmem with ⟨v, hv⟩
    rw [hleft, hv]
  · have hmem2 : containsKey r k = false := by
      cases hcase : containsKey r k
      · rfl
      · exact absurd hcase hmem
    have hr : lookupKey r k = none := lookupKey_eq_none r k hmem2
    rw [hr, lookupKey_filter_keep l _ k (fun e hek => by rw [hek, hmem2]; rfl)]
    cases hcase : lookupKey l k <;> simp [hcase]

theorem foldl_applyProgress_record (events : List (Nat × Nat)) :
    ∀ s : HookState, (events.foldl applyProgress s).record = s.record := by
  induction events with
  | nil => intro s; rfl
  | cons e evs ih => intro s; rw [List.foldl_cons]; exact ih _

theorem sampleNested_wf : WF sampleNested := by
  unfold sampleNested
  apply WF.obj
  · exact List.cons_ne_nil _ _
  · decide
  · decide
  · intro kv hkv
    simp only [List.mem_cons, List.not_mem_nil, or_false] at hkv
    rcases hkv with rfl | rfl
    · apply WF.obj
      · exact List.cons_ne_nil _ _
      · decide
      · decide
      · intro kv2 hkv2
        simp only [List.mem_cons, List.not_mem_nil, or_false] at hkv2
        rcases hkv2 with rfl
        exact WF.leaf _
    · apply WF.arr
      · exact List.cons_ne_nil _ _
      · intro v hv
        simp only [List.mem_cons, List.not_mem_nil, or_false] at hv
        rcases hv with rfl | rfl
        · exact WF.leaf _
        · exact WF.leaf _

/-! ### The claims -/
/-- C1: PathAddressing round-trip — for every well-formed nested container
`N`, `toNested (toFlat N) = N`, and the flat mapping `toFlat N` is
reproduced exactly by flattening its unflattening, so `toFlat` and
`toNested` are mutual inverses over objects and arrays of arbitrary depth
with scalar leaves. -/
theorem c1_path_roundtrip (n : Nested) (hwf : WF n) (hc : isContainer n = true) :
    toNested (toFlat n) = n ∧ toFlat (toNested (toFlat n)) = toFlat n := by
  have h1 := toNested_toFlat n hwf hc
  exact ⟨h1, by rw [h1]⟩

/-- Witness for C1 at a concrete two-level structure containing both an
object and an array. -/
theorem c1_path_roundtrip_witness :
    toNested (toFlat sampleNested) = sampleNested ∧
      toFlat (toNested (toFlat sampleNested)) = toFlat sampleNested :=
  c1_path_roundtrip sampleNested sampleNested_wf rfl

/-- C2 (code bug): edit-then-clear is NOT idempotent on the nested path
`"a.b"`.  Starting from the blank record, setting `"a.b"` to `"x"` and
then clearing it leaves `params` equal to `{"a.b": "x"}` instead of
restoring the empty mapping: the clear branch runs
`delete inflated["a.b"]` against the unflattened object, whose data sits
at `inflated.a.b`, so the delete is a no-op.  For a delimiter-free path
(`"a"`) the same sequence does restore the record, confirming the nested
case is the slip. -/
theorem c2_edit_then_clear_not_idempotent :
    (handleChangeEdit (handleChangeEdit emptyRecord "a.b" (.str "x") none)
        "a.b" .undef none).params = [("a.b", JsValue.str "x")] ∧
    (handleChangeEdit (handleChangeEdit emptyRecord "a.b" (.str "x") none)
        "a.b" .undef none).params ≠ emptyRecord.params ∧
    (handleChangeEdit (handleChangeEdit emptyRecord "a" (.str "x") none)
        "a" .undef none).params = emptyRecord.params := by
  refine ⟨by decide, by decide, by decide⟩

/-- C3: failure atomicity — whatever progress events happened in flight,
a rejected submission ends with `loading` false, `progress` 0, the record
exactly as it was when the submission started, and exactly one notice,
of type `"error"` with the fixed generic message. -/
theorem c3_failure_atomicity (st : HookState) (resourceId : String)
    (events : List (Nat × Nat)) :
    (submitRun st resourceId events .failure).state.loading = false ∧
    (submitRun st resourceId events .failure).state.progress = 0 ∧
    (submitRun st resourceId events .failure).state.record = st.record ∧
    (submitRun st resourceId events .failure).notices = [genericErrorNotice] ∧
    genericErrorNotice.type = "error" ∧
    genericErrorNotice.message =
      "There was an error updating record, Check out console to see more information." := by
  refine ⟨rfl, rfl, ?_, rfl, rfl, rfl⟩
  exact foldl_applyProgress_record events ⟨st.record, true, st.progress⟩

/-- C4 counterexample: a record whose id IS set — to the empty string —
is dispatched as a `"new"` resource action rather than the `"edit"`
record action the claim requires, because the code tests JS truthiness of
the id, not its presence. -/
theorem c4_dispatch_counterexample :
    emptyIdRecord.id.isSome = true ∧
    dispatchedCall emptyIdRecord "users" = ApiCall.resourceAction "users" "new" ∧
    dispatchedCall emptyIdRecord "users" ≠ ApiCall.recordAction "users" "edit" "" := by
  refine ⟨rfl, rfl, by decide⟩

/-- C4 (amended): every submission performs exactly the one dispatched
network operation; it is the `"edit"` operation addressed by the record's
id when the id is set and non-empty (truthy), otherwise the `"new"`
(create) operation; in both cases the operation targets the given
resourceId. -/
theorem c4_dispatch_selection (st : HookState) (resourceId : String)
    (events : List (Nat × Nat)) (outcome : Outcome) :
    (∃ i, st.record.id = some i ∧ i ≠ "" ∧
        (submitRun st resourceId events outcome).call =
          ApiCall.recordAction resourceId "edit" i) ∨
    ((st.record.id = none ∨ st.record.id = some "") ∧
      (submitRun st resourceId events outcome).call =
        ApiCall.resourceAction resourceId "new") := by
  have hcall : (submitRun st resourceId events outcome).call =
      dispatchedCall st.record resourceId := by
    cases outcome <;> rfl
  rw [hcall]
  cases hid : st.record.id with
  | none => exact Or.inr ⟨Or.inl rfl, by rw [dispatchedCall, hid]⟩
  | some i =>
    by_cases hi : i = ""
    · subst hi
      exact Or.inr ⟨Or.inr rfl, by rw [dispatchedCall, hid]; rfl⟩
    · exact Or.inl ⟨i, rfl, hi, by rw [dispatchedCall, hid]; exact if_pos hi⟩

/-- C5: merge additivity on populated (spec-modelled: the implementation
file `merge-record-response.ts` is not under `src/`) — the merged
populated mapping answers every lookup from the server record first and
falls back to the previous record, so a key present only in the previous
populated mapping survives and the server wins on collision; `params` and
`errors` come from the server record; `id` comes from the server record
if present, else from the previous record. -/
theorem c5_merge_additivity (prev server : RecordJSON) (k : String) :
    lookupKey (mergeRecordResponse prev server).populated k =
      (match lookupKey server.populated k with
       | some v => some v
       | none => lookupKey prev.populated k) ∧
    (mergeRecordResponse prev server).params = server.params ∧
    (mergeRecordResponse prev server).errors = server.errors ∧
    (mergeRecordResponse prev server).id =
      (match server.id with
       | some i => some i
       | none => prev.id) :=
  ⟨lookupKey_overlayKeys prev.populated server.populated k, rfl, rfl, rfl⟩

/-- C6: populated pruning — if a path is a key of `populated` and a field
edit clears that same path (falsy value), the resulting record's
`populated` no longer contains the key. -/
theorem c6_populated_pruning (prev : RecordJSON) (k : String) (value : JsValue)
    (incoming : Option RecordJSON) (hmem : containsKey prev.populated k = true)
    (hfalsy : value.truthy = false) :
    containsKey (handleChangeEdit prev k value incoming).populated k = false := by
  simp only [handleChangeEdit, handleChangeEditCore]
  rw [if_pos hfalsy, if_pos hmem]
  exact containsKey_delKey prev.populated k

/-- Witness for C6: clearing `"owner"` with `null` removes the populated
entry stored under `"owner"`. -/
theorem c6_populated_pruning_witness :
    containsKey ownerPopulatedRecord.populated "owner" = true ∧
    JsValue.null.truthy = false ∧
    containsKey (handleChangeEdit ownerPopulatedRecord "owner" .null none).populated
      "owner" = false :=
  ⟨by decide, by decide,
    c6_populated_pruning ownerPopulatedRecord "owner" .null none (by decide) (by decide)⟩

/-- C7 counterexample: an edit that overwrites `populated["owner"]` with
the very sub-record already stored there neither adds nor removes a
populated entry — the mapping's content is unchanged — yet the code sets
`populatedModified` and returns a NEW populated mapping instead of the
identical one, contradicting the claimed identity stability. -/
theorem c7_identity_counterexample :
    (handleChangeEditCore ownerPopulatedRecord "owner" (.str "x")
        (some emptyRecord)).1.populated = ownerPopulatedRecord.populated ∧
    (handleChangeEditCore ownerPopulatedRecord "owner" (.str "x")
        (some emptyRecord)).2 = true :=
  ⟨rfl, rfl⟩

/-- C7 (amended): field edits change only `params` and `populated` —
`errors` and `id` are unchanged by every field edit; a new populated
mapping is produced exactly when the edit cleared a present populated
entry or supplied a resolved sub-record (even if the written content is
unchanged), and otherwise the returned `populated` is the identical
mapping (`populatedModified` false means `prev.populated` is reused). -/
theorem c7_field_edit_frame (prev : RecordJSON) (k : String) (value : JsValue)
    (incoming : Option RecordJSON) :
    (handleChangeEditCore prev k value incoming).1.errors = prev.errors ∧
    (handleChangeEditCore prev k value incoming).1.id = prev.id ∧
    (handleChangeEditCore prev k value incoming).2 =
      (if value.truthy then incoming.isSome else containsKey prev.populated k) ∧
    ((handleChangeEditCore prev k value incoming).2 = false →
      (handleChangeEditCore prev k value incoming).1.populated = prev.populated) := by
  simp only [handleChangeEditCore]
  by_cases hv : value.truthy
  · rw [if_neg (show ¬(value.truthy = false) by rw [hv]; intro hc; cases hc)]
    cases incoming with
    | some r =>
      refine ⟨rfl, rfl, ?_, by intro hc; cases hc⟩
      rw [if_pos hv]
      rfl
    | none =>
      refine ⟨rfl, rfl, ?_, fun _ => rfl⟩
      rw [if_pos hv]
      rfl
  · have hv2 : value.truthy = false := by
      cases hcase : value.truthy
      · rfl
      · exact absurd hcase hv
    rw [if_pos hv2]
    by_cases hmem : containsKey prev.populated k = true
    · rw [if_pos hmem]
      refine ⟨rfl, rfl, ?_, by intro hc; cases hc⟩
      rw [if_neg (show ¬(value.truthy = true) by rw [hv2]; intro hc; cases hc), hmem]
    · have hmem2 : containsKey prev.populated k = false := by
        cases hcase : containsKey prev.populated k
        · rfl
        · exact absurd hcase hmem
      rw [if_neg hmem]
      refine ⟨rfl, rfl, ?_, fun _ => rfl⟩
      rw [if_neg (show ¬(value.truthy = true) by rw [hv2]; intro hc; cases hc), hmem2]

/-- Witness for C7's amended statement at a concrete edit (top-level path,
truthy value, no sub-record: the flag is false and populated is reused). -/
theorem c7_field_edit_frame_witness :
    (handleChangeEditCore emptyRecord "a" (.str "x") none).1.errors = emptyRecord.errors ∧
    (handleChangeEditCore emptyRecord "a" (.str "x") none).1.id = emptyRecord.id ∧
    (handleChangeEditCore emptyRecord "a" (.str "x") none).2 =
      (if (JsValue.str "x").truthy then (none : Option RecordJSON).isSome
       else containsKey emptyRecord.populated "a") ∧
    ((handleChangeEditCore emptyRecord "a" (.str "x") none).2 = false →
      (handleChangeEditCore emptyRecord "a" (.str "x") none).1.populated =
        emptyRecord.populated) :=
  c7_field_edit_frame emptyRecord "a" (.str "x") none

/-- C8: change disambiguation — a call is treated as a whole-record
replacement (the supplied record becomes the new state verbatim) exactly
when the first argument is a record object (not a path string), the value
argument is absent/undefined, and the record carries a `params` field;
in every other case it is a single-field edit at the given path (a record
first argument is string-coerced when it falls into the edit branch). -/
theorem c8_change_disambiguation (arg : ChangeArg) (value : JsValue) :
    (∀ r : RawRecord, arg = ChangeArg.record r →
      changeActionOf arg value =
        (if value = JsValue.undef ∧ r.params.isSome = true then ChangeAction.replace r
         else ChangeAction.fieldEdit (argAsKey arg) value)) ∧
    (∀ s : String, arg = ChangeArg.path s →
      changeActionOf arg value = ChangeAction.fieldEdit s value) := by
  constructor
  · intro r harg
    subst harg
    by_cases hu : value = JsValue.undef
    · subst hu
      by_cases hp : r.params.isSome = true
      · rw [if_pos ⟨rfl, hp⟩]
        simp [changeActionOf, isWholeRecordReplacement, hp]
      · rw [if_neg (fun hc => hp hc.2)]
        have hfalse : isWholeRecordReplacement (ChangeArg.record r) JsValue.undef = false := by
          cases hcase : r.params.isSome
          · exact hcase
          · exact absurd hcase hp
        simp [changeActionOf, hfalse]
    · rw [if_neg (fun hc => hu hc.1)]
      cases value with
      | undef => exact absurd rfl hu
      | null => rfl
      | bool b => rfl
      | num n => rfl
      | str s => rfl
  · intro s harg
    subst harg
    rfl

/-- Witness for C8: a record argument with `params` present and no value
argument is replaced verbatim; the same argument with a value supplied is
treated as a field edit. -/
theorem c8_change_disambiguation_witness :
    changeActionOf (ChangeArg.record sampleRaw) JsValue.undef =
      ChangeAction.replace sampleRaw ∧
    changeActionOf (ChangeArg.path "name") (JsValue.str "Alice") =
      ChangeAction.fieldEdit "name" (JsValue.str "Alice") := by
  constructor
  · have h := (c8_change_disambiguation (ChangeArg.record sampleRaw) JsValue.undef).1
      sampleRaw rfl
    rw [h]
    exact if_pos ⟨rfl, rfl⟩
  · exact (c8_change_disambiguation (ChangeArg.path "name") (JsValue.str "Alice")).2
      "name" rfl

/-- C9: progress computation — the recorded percentage is the integer
nearest `loaded·100/total` (round half up): it is the unique `q` with
`q − 1/2 ≤ 100·L/T < q + 1/2`, scaled by `2T`; it is at most 100 while
`loaded ≤ total`; it is monotone in `loaded`; each progress event records
exactly that rounded value, the sample event sequence records 25, 80, 100
in order; and progress is reset to 0 after completion, whatever the
outcome. -/
theorem c9_progress (L1 L2 T : Nat) (hT : 0 < T) (hL : L1 ≤ T) (hmono : L1 ≤ L2) :
    (2 * T * jsRound100 L1 T ≤ 200 * L1 + T ∧
      200 * L1 + T < 2 * T * jsRound100 L1 T + 2 * T) ∧
    jsRound100 L1 T ≤ 100 ∧
    jsRound100 L1 T ≤ jsRound100 L2 T ∧
    (∀ (st : HookState) (e : Nat × Nat),
      (applyProgress st e).progress = jsRound100 e.1 e.2) ∧
    progressTrace [(25, 100), (80, 100), (100, 100)] = [25, 80, 100] ∧
    (∀ (st : HookState) (resourceId : String) (events : List (Nat × Nat))
      (outcome : Outcome), (submitRun st resourceId events outcome).state.progress = 0) := by
  have hq := Nat.div_add_mod (200 * L1 + T) (2 * T)
  have hrlt : (200 * L1 + T) % (2 * T) < 2 * T := Nat.mod_lt _ (by omega)
  refine ⟨⟨?_, ?_⟩, ?_, ?_, ?_, by decide, ?_⟩
  · simp only [jsRound100]
    omega
  · simp only [jsRound100]
    omega
  · have hlt : 200 * L1 + T < 101 * (2 * T) := by omega
    have h2 := (Nat.div_lt_iff_lt_mul (by omega : 0 < 2 * T)).mpr hlt
    simp only [jsRound100]
    omega
  · exact Nat.div_le_div_right (Nat.add_le_add_right (Nat.mul_le_mul_left 200 hmono) T)
  · intro st e
    rfl
  · intro st resourceId events outcome
    cases outcome <;> rfl

/-- Witness for C9 at the sample event values loaded 25 then 80 of 100. -/
theorem c9_progress_witness :
    jsRound100 25 100 ≤ 100 ∧ jsRound100 25 100 ≤ jsRound100 80 100 :=
  ⟨(c9_progress 25 80 100 (by decide) (by decide) (by decide)).2.1,
    (c9_progress 25 80 100 (by decide) (by decide) (by decide)).2.2.1⟩

/-- C10: record shape invariant — `initialize` defaults missing `params`,
`errors` and `populated` to empty mappings, so the initial record is
well shaped for any (possibly absent, possibly partial) initial data; and
the record stays well shaped after every operation: a wholesale
replacement by a new initial record, a field edit, and a merge of a
server response all produce records with all three fields defined. -/
theorem c10_record_shape (init : Option RawRecord) (r : RecordJSON)
    (cur : RawRecord) (prev : RecordJSON) (k : String) (value : JsValue)
    (incoming : Option RecordJSON) (serverRec : RecordJSON) :
    wellShaped (initializeRecord init) = true ∧
    wellShaped (effectReplace cur (some r)) = true ∧
    wellShaped (toRaw (handleChangeEdit prev k value incoming)) = true ∧
    wellShaped (toRaw (mergeRecordResponse prev serverRec)) = true := by
  refine ⟨?_, rfl, rfl, rfl⟩
  cases init <;> rfl

end UseRecord
